import Mathlib

/-!
# Verification of the retrieval engine of a semantic-search QA service

This file embeds the core of `pdfProcessor.js` (the `PDFProcessor` class:
chunking, index bookkeeping, similarity search, and the HTTP query route of
`server.js`) as executable Lean definitions and proves properties of them.

Modelling conventions:
* JS strings become `List Char`; `String.prototype.length` is the list length
  (the test inputs are ASCII, where UTF-16 code units and code points agree).
* JS numbers used as cursors are `Int` (the chunking cursor can go negative);
  sizes are `Nat`.  The comparison `breakPoint > start + chunkSize * 0.5` is
  exact in IEEE doubles for the integer magnitudes involved, so it is embedded
  as the equivalent integer comparison `2*breakPoint > 2*start + chunkSize`.
* Similarity scores are `ℚ`, idealising the floating-point arithmetic
  `1 - distance`; the claims treated here only concern that formula and the
  relative order of scores.
* The external collaborators (pdf-parse, the transformer embedder, the FAISS
  index search, the Perplexity API) enter as parameters: the extracted text,
  an abstract embedding function, the `(indices, distances)` arrays a FAISS
  `search` call reports, and an optional LLM answer.
* The `while` loop of `splitIntoChunks` is embedded with explicit fuel:
  `none` means the loop was still running when the fuel ran out, so
  "terminates" is `∃ fuel, result = some _` and "loops forever" is
  `∀ fuel, result = none`.
-/

namespace PDFQA

/-- `lastIdxLe s c n` is the largest index `i ≤ n` with `i < s.length` and
`s[i] = c`, or `-1` when there is none: the search that JavaScript's
`String.prototype.lastIndexOf(c, n)` performs for a one-character needle and a
clamped non-negative `fromIndex`. -/
def lastIdxLe (s : List Char) (c : Char) : Nat → Int
  | 0 =>
    if h : 0 < s.length then (if s.get ⟨0, h⟩ = c then 0 else -1) else -1
  | n+1 =>
    if h : n + 1 < s.length then
      (if s.get ⟨n+1, h⟩ = c then ((n+1 : Nat) : Int) else lastIdxLe s c n)
    else lastIdxLe s c n

/-- JavaScript `s.lastIndexOf(c, pos)` for a single character `c`:
a negative `fromIndex` is clamped to `0` (index 0 is still inspected), a
`fromIndex` beyond the end searches the whole string. -/
def jsLastIndexOf (s : List Char) (c : Char) (pos : Int) : Int :=
  lastIdxLe s c pos.toNat

/-- Clamp of one `slice` endpoint, as JavaScript does it: a negative index
counts from the end (bottoming out at 0), a positive one is capped at the
length. -/
def jsSliceClamp (len : Nat) (i : Int) : Nat :=
  if i < 0 then ((len : Int) + i).toNat else min i.toNat len

/-- JavaScript `s.slice(a, b)` on a character list. -/
def jsSlice (s : List Char) (a b : Int) : List Char :=
  (s.take (jsSliceClamp s.length b)).drop (jsSliceClamp s.length a)

/-- The WhiteSpace set that JavaScript's `trim` strips (the members that can
occur in extracted PDF text). -/
def isJsWhitespace (c : Char) : Bool :=
  c == ' ' || c == '\t' || c == '\n' || c == '\r' || c == '\x0b' || c == '\x0c'

/-- JavaScript `s.trim()`: drop whitespace from both ends. -/
def jsTrim (s : List Char) : List Char :=
  ((s.dropWhile isJsWhitespace).reverse.dropWhile isJsWhitespace).reverse

/-- The end of the chunk proposed at cursor `start`, from the body of
`splitIntoChunks` (`pdfProcessor.js`, lines 83–94): propose
`start + chunkSize`; if that lies strictly before the text's end, compute
`breakPoint = max(lastIndexOf('.', end), lastIndexOf('\n', end))` and move the
end to `breakPoint + 1` exactly when `breakPoint > start + chunkSize * 0.5`. -/
def chunkEnd (text : List Char) (chunkSize : Nat) (start : Int) : Int :=
  let end0 : Int := start + chunkSize
  if end0 < text.length then
    let lastPeriod := jsLastIndexOf text '.' end0
    let lastNewline := jsLastIndexOf text '\n' end0
    let breakPoint := max lastPeriod lastNewline
    if 2 * breakPoint > 2 * start + chunkSize then breakPoint + 1 else end0
  else end0

/-- One pass of the `while (start < text.length)` loop of `splitIntoChunks`,
with `fuel` bounding the number of iterations: extract
`text.slice(start, end).trim()`, keep it when non-empty, and continue at
`end - overlap`.  `none` means the fuel ran out with the loop still
running. -/
def splitGo (text : List Char) (chunkSize overlap : Nat) :
    Nat → Int → Option (List (List Char))
  | 0, start => if start < (text.length : Int) then none else some []
  | fuel+1, start =>
    if start < (text.length : Int) then
      let e := chunkEnd text chunkSize start
      let chunk := jsTrim (jsSlice text start e)
      match splitGo text chunkSize overlap fuel (e - overlap) with
      | none => none
      | some rest => some (if 0 < chunk.length then chunk :: rest else rest)
    else some []

/-- `PDFProcessor.splitIntoChunks(text, chunkSize, overlap)`: the loop started
at cursor 0. -/
def splitIntoChunks (text : List Char) (chunkSize overlap fuel : Nat) :
    Option (List (List Char)) :=
  splitGo text chunkSize overlap fuel 0

/-- Ghost instrumentation of the same loop: alongside each kept chunk, record
the cursor and the computed end of the iteration that extracted it.  The
control flow is identical to `splitGo`; the projection lemma
`splitGoOffsets_fst` below ties the two. -/
def splitGoOffsets (text : List Char) (chunkSize overlap : Nat) :
    Nat → Int → Option (List (List Char × Int × Int))
  | 0, start => if start < (text.length : Int) then none else some []
  | fuel+1, start =>
    if start < (text.length : Int) then
      let e := chunkEnd text chunkSize start
      let chunk := jsTrim (jsSlice text start e)
      match splitGoOffsets text chunkSize overlap fuel (e - overlap) with
      | none => none
      | some rest => some (if 0 < chunk.length then (chunk, start, e) :: rest else rest)
    else some []

/-- `splitIntoChunks` terminates on the given parameters: some fuel suffices
to finish the `while` loop. -/
def splitTerminates (text : List Char) (cs ov : Nat) : Prop :=
  ∃ fuel chunks, splitIntoChunks text cs ov fuel = some chunks

/-- `splitIntoChunks` loops forever on the given parameters: no fuel ever
suffices. -/
def splitDiverges (text : List Char) (cs ov : Nat) : Prop :=
  ∀ fuel, splitIntoChunks text cs ov fuel = none

/-- The metadata entry pushed for chunk `i` by `processPDF`
(`pdfProcessor.js`, lines 56–61): `startChar = i * 500`,
`endChar = min((i+1) * 500, text.length)`, `pageNumber = ⌊i / 5⌋ + 1`. -/
structure ChunkMeta where
  chunkIndex : Nat
  startChar : Nat
  endChar : Nat
  pageNumber : Nat
  deriving Repr, DecidableEq

/-- The metadata `processPDF` records for chunk `i` of a text of length
`textLen`. -/
def mkMetadata (textLen i : Nat) : ChunkMeta :=
  ⟨i, i * 500, min ((i + 1) * 500) textLen, i / 5 + 1⟩

/-- The mutable fields of a `PDFProcessor` instance.  The FAISS index is its
row list (`faissIndex.ntotal` is the list length); `V` is the abstract type of
embedding vectors. -/
structure ProcState (V : Type) where
  chunks : List (List Char)
  metadata : List ChunkMeta
  faissIndex : List V
  initialized : Bool
  deriving Repr, DecidableEq

/-- The state of a freshly constructed `PDFProcessor`. -/
def ProcState.fresh (V : Type) : ProcState V :=
  ⟨[], [], [], false⟩

/-- `PDFProcessor.initialize()`: returns at once when already initialized,
otherwise loads the embedder and creates a fresh `IndexFlatL2`. -/
def initEngine {V : Type} (st : ProcState V) : ProcState V :=
  if st.initialized then st else { st with faissIndex := [], initialized := true }

/-- `PDFProcessor.processPDF`, with the pdf-parse collaborator replaced by the
extracted `text` and the transformer by the abstract `embed`.  The source
*assigns* the new chunk list (`this.chunks = this.splitIntoChunks(...)`) but
*pushes* onto `this.metadata` and *adds* to the persistent `this.faissIndex`,
so metadata and index rows accumulate across calls while the chunk list is
replaced. -/
def processPDF {V : Type} (embed : List Char → V) (st : ProcState V)
    (text : List Char) (fuel : Nat) : Option (ProcState V) :=
  let st := initEngine st
  match splitIntoChunks text 500 50 fuel with
  | none => none
  | some cs =>
    some { st with
      chunks := cs
      metadata := st.metadata ++ (List.range cs.length).map (mkMetadata text.length)
      faissIndex := st.faissIndex ++ cs.map embed }

/-- `PDFProcessor.hasDocument()`. -/
def hasDocument {V : Type} (st : ProcState V) : Bool :=
  st.chunks.length > 0

/-- `PDFProcessor.getChunksCount()`. -/
def getChunksCount {V : Type} (st : ProcState V) : Nat :=
  st.chunks.length

/-- One entry of the result list `searchSimilarChunks` builds. -/
structure RetrievedChunk where
  chunk : List Char
  metadata : ChunkMeta
  similarity : ℚ
  deriving Repr, DecidableEq

/-- The result-building loop of `searchSimilarChunks` (`pdfProcessor.js`,
lines 120–129) over the `(indices, distances)` pairs a FAISS search reported:
keep a row only when `0 ≤ indices[i] < chunks.length`, and map it to
`{chunk, metadata, similarity = 1 - distances[i]}`. -/
def buildResults (chunks : List (List Char)) (metadata : List ChunkMeta)
    (pairs : List (Int × ℚ)) : List RetrievedChunk :=
  pairs.filterMap fun p =>
    if 0 ≤ p.1 ∧ p.1 < (chunks.length : Int) then
      some ⟨chunks.getD p.1.toNat [], metadata.getD p.1.toNat ⟨0, 0, 0, 0⟩, 1 - p.2⟩
    else none

/-- `PDFProcessor.searchSimilarChunks(query, topK)`: returns `[]` when the
engine is uninitialized or holds no chunks; otherwise builds results from the
`(indices, distances)` arrays the FAISS collaborator reported for the embedded
query (the collaborator's contract — at most `topK` rows, distances sorted
ascending — enters the theorems as hypotheses). -/
def searchSimilarChunks {V : Type} (st : ProcState V)
    (indices : List Int) (distances : List ℚ) : List RetrievedChunk :=
  if !st.initialized || st.chunks.length == 0 then []
  else buildResults st.chunks st.metadata (indices.zip distances)

/-- Outcome of the `/pdf/query` Express route (`server.js`, lines 70–89):
a 400 with an error message, a 500 (any exception thrown inside the handler,
including `query()`'s own `'No relevant chunks found'`), or a 200 carrying the
answer and the retrieved source chunks (the presentation wrapper — ranks,
200-character previews, timestamp — is elided). -/
inductive RouteResponse where
  | clientError (error : String)
  | serverError (error : String)
  | ok (answer : String) (sources : List RetrievedChunk)
  deriving Repr, DecidableEq

/-- The `/pdf/query` route handler: reject a missing query (400), reject an
engine with no document (400 `'No document loaded'` — the spec's `NotReady`),
otherwise run `PDFProcessor.query`, whose failures (empty search result, a
Perplexity failure modelled as `llmAnswer = none`) are caught and reported as
a 500. -/
def queryRoute {V : Type} (st : ProcState V) (hasQuery : Bool)
    (indices : List Int) (distances : List ℚ) (llmAnswer : Option String) :
    RouteResponse :=
  if !hasQuery then .clientError ("Query is required")
  else if !hasDocument st then .clientError ("No document loaded")
  else
    let similar := searchSimilarChunks st indices distances
    if similar.length = 0 then .serverError ("Failed to process query")
    else
      match llmAnswer with
      | none => .serverError ("Failed to process query")
      | some ans => .ok ans similar

/-- 30 characters with a sentence terminator at index 7.  At
`chunkSize = 10, overlap = 8` (overlap smaller than chunk size) the accepted
break point 7 gives `end = 8` and the next cursor `8 - 8 = 0`: the loop never
advances. -/
def stallText : List Char := "aaaaaaa.aaaaaaaaaaaaaaaaaaaaaa".toList

/-- 460 identical characters: long enough to produce two chunks at the default
parameters `chunkSize = 500, overlap = 50` (the second from cursor 450), yet
short enough that the proposed end `cursor + 500` always reaches past the end
of the text, so the loop never runs the backward break-point scan. -/
def text460 : List Char := List.replicate 460 'a'

/-- Engine state after processing the five-character document `"hello"` on a
fresh engine (one chunk, one metadata entry, one index row). -/
def stateA : ProcState (List Char) :=
  (processPDF id (ProcState.fresh (List Char)) "hello".toList 2).getD
    (ProcState.fresh (List Char))

/-- Engine state after then processing `"world"` on the same engine: the
second upload replaces the first document. -/
def stateB : ProcState (List Char) :=
  (processPDF id stateA "world".toList 2).getD (ProcState.fresh (List Char))

/-- Engine state after processing the 460-character document `text460` on a
fresh engine (two chunks). -/
def state460 : ProcState (List Char) :=
  (processPDF id (ProcState.fresh (List Char)) text460 2).getD
    (ProcState.fresh (List Char))

/-- `bp` bounds every position `j ≤ max pos 0` that holds a sentence
terminator `'.'` or a newline: no break candidate lies between `bp` and the
(clamped) proposed end `pos`.  This is the spec-side reading of "the nearest
`'.'` or newline found looking backward from the proposed end". -/
def breakUpperBound (text : List Char) (pos bp : Int) : Prop :=
  ∀ (j : Nat) (hj : j < text.length), (j : Int) ≤ max pos 0 →
    (text.get ⟨j, hj⟩ = '.' ∨ text.get ⟨j, hj⟩ = '\n') → (j : Int) ≤ bp

/-- When `bp` is non-negative it is itself the position of a `'.'` or newline
within the clamped backward-search range. -/
def breakWitnessed (text : List Char) (pos bp : Int) : Prop :=
  0 ≤ bp → ∃ hb : bp.toNat < text.length,
    (text.get ⟨bp.toNat, hb⟩ = '.' ∨ text.get ⟨bp.toNat, hb⟩ = '\n') ∧
    bp ≤ max pos 0

/-- Every returned similarity is `1 - d` for a distance `d` the vector-index
collaborator reported. -/
def similaritiesFromDistances (results : List RetrievedChunk)
    (pairs : List (Int × ℚ)) : Prop :=
  ∀ r ∈ results, ∃ p ∈ pairs, r.similarity = 1 - p.2

/-- Every returned result is backed by an in-bounds row id: its chunk is an
actual element of the chunk list, and its metadata the corresponding entry of
the metadata list whenever that lookup is in bounds. -/
def resultsInBounds (chunks : List (List Char)) (metadata : List ChunkMeta)
    (results : List RetrievedChunk) : Prop :=
  ∀ r ∈ results, ∃ i : Fin chunks.length, r.chunk = chunks.get i ∧
    ∀ hm : (i : Nat) < metadata.length, r.metadata = metadata.get ⟨i, hm⟩

/-! ## Facts about the embedded string primitives -/

theorem lastIdxLe_le (s : List Char) (c : Char) : ∀ n, lastIdxLe s c n ≤ (n : Int) := by
  intro n
  induction n with
  | zero => unfold lastIdxLe; split_ifs <;> omega
  | succ n ih => unfold lastIdxLe; split_ifs <;> omega

theorem neg_one_le_lastIdxLe (s : List Char) (c : Char) : ∀ n, -1 ≤ lastIdxLe s c n := by
  intro n
  induction n with
  | zero => unfold lastIdxLe; split_ifs <;> omega
  | succ n ih => unfold lastIdxLe; split_ifs <;> omega

theorem lastIdxLe_lt_length (s : List Char) (c : Char) :
    ∀ n, lastIdxLe s c n < (s.length : Int) := by
  intro n
  induction n with
  | zero => unfold lastIdxLe; split_ifs <;> omega
  | succ n ih => unfold lastIdxLe; split_ifs <;> omega

theorem lastIdxLe_mem (s : List Char) (c : Char) :
    ∀ n r, lastIdxLe s c n = r → 0 ≤ r →
      ∃ h : r.toNat < s.length, s.get ⟨r.toNat, h⟩ = c := by
  intro n
  induction n with
  | zero =>
    intro r hr h0
    unfold lastIdxLe at hr
    split_ifs at hr with h1 h2
    all_goals first
      | exact ⟨by omega, by subst hr; simpa using h2⟩
      | omega
  | succ n ih =>
    intro r hr h0
    unfold lastIdxLe at hr
    split_ifs at hr with h1 h2
    all_goals first
      | (refine ⟨by omega, ?_⟩; subst hr; simpa using h2)
      | exact ih r hr h0

theorem lastIdxLe_greatest (s : List Char) (c : Char) :
    ∀ n (j : Nat) (hj : j < s.length), j ≤ n → s.get ⟨j, hj⟩ = c →
      (j : Int) ≤ lastIdxLe s c n := by
  intro n
  induction n with
  | zero =>
    intro j hj hjn hc
    have hj0 : j = 0 := by omega
    subst hj0
    unfold lastIdxLe
    split_ifs with h1 h2
    all_goals first
      | omega
      | exact absurd hc h2
  | succ n ih =>
    intro j hj hjn hc
    unfold lastIdxLe
    split_ifs with h1 h2
    all_goals first
      | omega
      | (rcases Nat.lt_or_ge j (n + 1) with hlt | hge
         · exact ih j hj (by omega) hc
         · have hj1 : j = n + 1 := by omega
           subst hj1
           exact absurd hc h2)
      | exact ih j hj (by omega) hc

theorem lastIdxLe_of_not_mem (s : List Char) (c : Char) (h : c ∉ s) :
    ∀ n, lastIdxLe s c n = -1 := by
  intro n
  induction n with
  | zero =>
    unfold lastIdxLe
    split_ifs with h1 h2
    all_goals first
      | rfl
      | exact absurd (h2 ▸ List.get_mem s 0 h1) h
  | succ n ih =>
    unfold lastIdxLe
    split_ifs with h1 h2
    all_goals first
      | exact ih
      | exact absurd (h2 ▸ List.get_mem s (n+1) h1) h

theorem jsLastIndexOf_le (s : List Char) (c : Char) (pos : Int) :
    jsLastIndexOf s c pos ≤ max pos 0 := by
  have h := lastIdxLe_le s c pos.toNat
  unfold jsLastIndexOf
  omega

theorem neg_one_le_jsLastIndexOf (s : List Char) (c : Char) (pos : Int) :
    -1 ≤ jsLastIndexOf s c pos :=
  neg_one_le_lastIdxLe s c pos.toNat

theorem jsLastIndexOf_of_not_mem (s : List Char) (c : Char) (pos : Int) (h : c ∉ s) :
    jsLastIndexOf s c pos = -1 :=
  lastIdxLe_of_not_mem s c h pos.toNat

theorem length_dropWhile_le (p : Char → Bool) (l : List Char) :
    (l.dropWhile p).length ≤ l.length := by
  induction l with
  | nil => simp
  | cons a l ih => by_cases h : p a <;> simp [List.dropWhile_cons, h] <;> omega

theorem jsTrim_length_le (s : List Char) : (jsTrim s).length ≤ s.length := by
  unfold jsTrim
  have h1 := length_dropWhile_le isJsWhitespace s
  have h2 := length_dropWhile_le isJsWhitespace (s.dropWhile isJsWhitespace).reverse
  simp only [List.length_reverse] at *
  omega

theorem jsSlice_length (s : List Char) (a b : Int) :
    (jsSlice s a b).length =
      min (jsSliceClamp s.length b) s.length - jsSliceClamp s.length a := by
  simp [jsSlice, List.length_drop, List.length_take]

/-! ## Facts about `chunkEnd` and the chunking loop -/

/-- `chunkEnd` either keeps the raw proposed end `start + chunkSize`, or moves
to one past an accepted break point, which is a non-negative position at most
one past the (clamped) proposed end and strictly past the chunk midpoint. -/
theorem chunkEnd_cases (text : List Char) (cs : Nat) (start : Int) :
    chunkEnd text cs start = start + cs ∨
      (0 ≤ chunkEnd text cs start ∧
       chunkEnd text cs start ≤ max (start + cs) 0 + 1 ∧
       2 * start + cs + 3 ≤ 2 * chunkEnd text cs start) := by
  simp only [chunkEnd]
  have hp := jsLastIndexOf_le text '.' (start + cs)
  have hn := jsLastIndexOf_le text '\n' (start + cs)
  have hp1 := neg_one_le_jsLastIndexOf text '.' (start + cs)
  split_ifs with h1 h2
  · right; omega
  · left; rfl
  · left; rfl

theorem chunkEnd_ge (text : List Char) (cs : Nat) (start : Int) :
    start ≤ chunkEnd text cs start := by
  rcases chunkEnd_cases text cs start with h | h <;> omega

/-- Under `overlap < chunkSize` and `2·overlap ≤ chunkSize + 2` the cursor
strictly advances: this is the condition the termination proof rests on. -/
theorem chunkEnd_advance (text : List Char) (cs ov : Nat) (start : Int)
    (h1 : ov < cs) (h2 : 2 * ov ≤ cs + 2) :
    start + 1 ≤ chunkEnd text cs start - ov := by
  rcases chunkEnd_cases text cs start with h | h <;> omega

/-- Every chunk the loop extracts — `text.slice(start, end).trim()` with
`end = chunkEnd` — has at most `chunkSize + 1` characters. -/
theorem chunk_at_length_le (text : List Char) (cs : Nat) (start : Int) :
    (jsTrim (jsSlice text start (chunkEnd text cs start))).length ≤ cs + 1 := by
  refine le_trans (jsTrim_length_le _) ?_
  rw [jsSlice_length]
  rcases chunkEnd_cases text cs start with h | h <;>
    · simp only [jsSliceClamp]
      split_ifs <;> omega

/-- If a predicate on cursors is preserved by one loop iteration and forces
the loop guard to stay true, the loop never finishes from any cursor
satisfying it. -/
theorem splitGo_none_of_invariant (text : List Char) (cs ov : Nat) (P : Int → Prop)
    (hP : ∀ s, P s → s < (text.length : Int) ∧ P (chunkEnd text cs s - ov)) :
    ∀ fuel start, P start → splitGo text cs ov fuel start = none := by
  intro fuel
  induction fuel with
  | zero =>
    intro start h
    simp [splitGo, (hP start h).1]
  | succ n ih =>
    intro start h
    obtain ⟨h1, h2⟩ := hP start h
    simp only [splitGo, if_pos h1, ih _ h2]

/-- With a strictly advancing cursor, `text.length - start` bounds the number
of remaining iterations. -/
theorem splitGo_isSome (text : List Char) (cs ov : Nat)
    (h1 : ov < cs) (h2 : 2 * ov ≤ cs + 2) :
    ∀ (n : Nat) (start : Int), (text.length : Int) ≤ start + n →
      (splitGo text cs ov n start).isSome = true := by
  intro n
  induction n with
  | zero =>
    intro start hlen
    simp [splitGo, show ¬start < (text.length : Int) by omega]
  | succ n ih =>
    intro start hlen
    by_cases hs : start < (text.length : Int)
    · have hadv := chunkEnd_advance text cs ov start h1 h2
      have hrec := ih (chunkEnd text cs start - ov) (by omega)
      simp only [splitGo, if_pos hs]
      cases hcall : splitGo text cs ov n (chunkEnd text cs start - ov) with
      | none => rw [hcall] at hrec; simp at hrec
      | some rest => simp
    · simp [splitGo, hs]

/-- Every chunk the loop emits is non-empty and at most `chunkSize + 1`
characters long. -/
theorem splitGo_chunk_bounds (text : List Char) (cs ov : Nat) :
    ∀ fuel (start : Int) chunks, splitGo text cs ov fuel start = some chunks →
      ∀ c ∈ chunks, 0 < c.length ∧ c.length ≤ cs + 1 := by
  intro fuel
  induction fuel with
  | zero =>
    intro start chunks h c hc
    by_cases hs : start < (text.length : Int)
    · simp [splitGo, hs] at h
    · simp only [splitGo, if_neg hs, Option.some.injEq] at h
      subst h
      simp at hc
  | succ n ih =>
    intro start chunks h c hc
    by_cases hs : start < (text.length : Int)
    · simp only [splitGo, if_pos hs] at h
      cases hcall : splitGo text cs ov n (chunkEnd text cs start - ov) with
      | none => rw [hcall] at h; simp at h
      | some rest =>
        rw [hcall] at h
        simp only [Option.some.injEq] at h
        subst h
        split_ifs at hc with hne
        · rcases List.mem_cons.mp hc with hceq | hcrest
          · subst hceq
            exact ⟨hne, chunk_at_length_le text cs start⟩
          · exact ih _ rest hcall c hcrest
        · exact ih _ rest hcall c hc
    · simp only [splitGo, if_neg hs, Option.some.injEq] at h
      subst h
      simp at hc

/-- The instrumented loop computes the same chunk list as the source loop:
dropping the recorded offsets recovers `splitGo`. -/
theorem splitGoOffsets_fst (text : List Char) (cs ov : Nat) :
    ∀ fuel (start : Int),
      (splitGoOffsets text cs ov fuel start).map (List.map Prod.fst) =
        splitGo text cs ov fuel start := by
  intro fuel
  induction fuel with
  | zero =>
    intro start
    by_cases hs : start < (text.length : Int) <;> simp [splitGo, splitGoOffsets, hs]
  | succ n ih =>
    intro start
    by_cases hs : start < (text.length : Int)
    · have := ih (chunkEnd text cs start - ov)
      simp only [splitGo, splitGoOffsets, if_pos hs]
      cases hcall : splitGoOffsets text cs ov n (chunkEnd text cs start - ov) with
      | none =>
        rw [hcall] at this
        simp only [Option.map_none'] at this
        rw [← this]
        simp
      | some rest =>
        rw [hcall] at this
        simp only [Option.map_some'] at this
        rw [← this]
        split_ifs with hne <;> simp
    · simp [splitGo, splitGoOffsets, hs]

/-! ## Facts about the search-result construction -/

theorem filterMap_ite_eq_map_filter {α β : Type} (p : α → Prop) [DecidablePred p]
    (g : α → β) (l : List α) :
    (l.filterMap fun a => if p a then some (g a) else none) =
      (l.filter fun a => decide (p a)).map g := by
  induction l with
  | nil => rfl
  | cons a l ih =>
    by_cases h : p a <;> simp [List.filterMap_cons, List.filter_cons, h, ih]

theorem buildResults_eq_map_filter (chunks : List (List Char))
    (metadata : List ChunkMeta) (pairs : List (Int × ℚ)) :
    buildResults chunks metadata pairs =
      (pairs.filter fun p => decide (0 ≤ p.1 ∧ p.1 < (chunks.length : Int))).map
        (fun p => ⟨chunks.getD p.1.toNat [], metadata.getD p.1.toNat ⟨0, 0, 0, 0⟩,
          1 - p.2⟩) :=
  filterMap_ite_eq_map_filter _ _ pairs

theorem mem_buildResults (chunks : List (List Char)) (metadata : List ChunkMeta)
    (pairs : List (Int × ℚ)) (r : RetrievedChunk)
    (h : r ∈ buildResults chunks metadata pairs) :
    ∃ p ∈ pairs, 0 ≤ p.1 ∧ p.1 < (chunks.length : Int) ∧
      r = ⟨chunks.getD p.1.toNat [], metadata.getD p.1.toNat ⟨0, 0, 0, 0⟩, 1 - p.2⟩ := by
  simp only [buildResults] at h
  obtain ⟨p, hp, hf⟩ := List.mem_filterMap.mp h
  by_cases hc : 0 ≤ p.1 ∧ p.1 < (chunks.length : Int)
  · rw [if_pos hc] at hf
    exact ⟨p, hp, hc.1, hc.2, (Option.some.inj hf).symm⟩
  · rw [if_neg hc] at hf
    cases hf

theorem buildResults_pairwise (chunks : List (List Char)) (metadata : List ChunkMeta)
    (pairs : List (Int × ℚ)) (h : pairs.Pairwise fun p q => p.2 ≤ q.2) :
    (buildResults chunks metadata pairs).Pairwise
      (fun a b => b.similarity ≤ a.similarity) := by
  simp only [buildResults]
  rw [List.pairwise_filterMap]
  refine h.imp ?_
  intro p q hpq r hr r' hr'
  by_cases hc : 0 ≤ p.1 ∧ p.1 < (chunks.length : Int)
  · rw [if_pos hc] at hr
    by_cases hc' : 0 ≤ q.1 ∧ q.1 < (chunks.length : Int)
    · rw [if_pos hc'] at hr'
      simp only [Option.mem_def, Option.some.injEq] at hr hr'
      subst hr
      subst hr'
      show (1 : ℚ) - q.2 ≤ 1 - p.2
      linarith
    · rw [if_neg hc'] at hr'
      simp at hr'
  · rw [if_neg hc] at hr
    simp at hr

/-! ## Claim theorems -/

/-- C10: every chunk string returned by `splitIntoChunks`, for every input
text and all `chunkSize`/`overlap` parameters, is non-empty and at most
`chunkSize + 1` characters long (one more than `chunkSize`, because an
accepted sentence-boundary break sets the chunk end one character past the
terminator). -/
theorem splitIntoChunks_chunk_nonempty_bounded (text : List Char)
    (cs ov fuel : Nat) (chunks : List (List Char)) (c : List Char)
    (h : splitIntoChunks text cs ov fuel = some chunks) (hc : c ∈ chunks) :
    0 < c.length ∧ c.length ≤ cs + 1 :=
  splitGo_chunk_bounds text cs ov fuel 0 chunks h c hc

/-- Witness for C10: the single chunk produced for the five-character document
`"hello"` at the default parameters is non-empty and within the bound. -/
theorem splitIntoChunks_chunk_nonempty_bounded_witness :
    0 < ("hello".toList).length ∧ ("hello".toList).length ≤ 500 + 1 :=
  splitIntoChunks_chunk_nonempty_bounded "hello".toList 500 50 2
    ["hello".toList] "hello".toList (by decide) (by decide)

/-- C3 counterexample: the claim "for every pair of parameters with
`overlap < chunkSize`, `splitIntoChunks` terminates" is false.  At
`chunkSize = 10, overlap = 8` (so `overlap < chunkSize`) on `stallText`
(a `'.'` at index 7), the accepted break point sets `end = 8`, the next
cursor is `8 - 8 = 0`, and the loop never advances: no fuel ever finishes
it. -/
theorem splitIntoChunks_stalls_despite_overlap_lt :
    8 < 10 ∧ splitDiverges stallText 10 8 := by
  refine ⟨by norm_num, fun fuel => ?_⟩
  refine splitGo_none_of_invariant stallText 10 8 (fun s => s = 0) ?_ fuel 0 rfl
  rintro s rfl
  refine ⟨by decide, ?_⟩
  show chunkEnd stallText 10 0 - 8 = 0
  decide

/-- C3 (amended): `splitIntoChunks` terminates for every input text whenever
`overlap < chunkSize` *and* the overlap does not reach past the midpoint
acceptance threshold, `2·overlap ≤ chunkSize + 2`; the unrestricted claim
fails (see the counterexample). -/
theorem splitIntoChunks_terminates_overlap_le_half (text : List Char)
    (cs ov : Nat) (h1 : ov < cs) (h2 : 2 * ov ≤ cs + 2) :
    splitTerminates text cs ov := by
  have h := splitGo_isSome text cs ov h1 h2 text.length 0 (by omega)
  obtain ⟨chunks, hc⟩ := Option.isSome_iff_exists.mp h
  exact ⟨text.length, chunks, hc⟩

/-- Witness for the amended C3: the default parameters `500/50` satisfy both
hypotheses, and chunking `"hello"` with them terminates. -/
theorem splitIntoChunks_terminates_overlap_le_half_witness :
    splitTerminates "hello".toList 500 50 :=
  splitIntoChunks_terminates_overlap_le_half "hello".toList 500 50
    (by norm_num) (by norm_num)

/-- C7 counterexample: the claim that the implementation guards against a
non-advancing cursor when `overlap ≥ chunkSize` and fails fast is false:
there is no guard, and at `chunkSize = overlap = 10` on twenty `'a'`s (no
`'.'` or newline) the cursor returns to 0 forever — the call never
terminates with any fuel, rather than reporting a configuration error. -/
theorem splitIntoChunks_no_guard_overlap_ge :
    10 ≤ 10 ∧ splitDiverges (List.replicate 20 'a') 10 10 := by
  refine ⟨le_refl 10, fun fuel => ?_⟩
  refine splitGo_none_of_invariant (List.replicate 20 'a') 10 10
    (fun s => s ≤ 0) ?_ fuel 0 le_rfl
  intro s hs
  have hlen : ((List.replicate 20 'a').length : Int) = 20 := by simp
  refine ⟨by omega, ?_⟩
  have hper : ∀ pos, jsLastIndexOf (List.replicate 20 'a') '.' pos = -1 :=
    fun pos => jsLastIndexOf_of_not_mem _ _ _ (by simp)
  have hnl : ∀ pos, jsLastIndexOf (List.replicate 20 'a') '\n' pos = -1 :=
    fun pos => jsLastIndexOf_of_not_mem _ _ _ (by simp)
  simp only [chunkEnd, hper, hnl]
  split_ifs <;> omega

/-- C7 (amended): `splitIntoChunks` has no guard for `overlap ≥ chunkSize`:
on any non-empty text containing no `'.'` and no newline, the cursor never
advances past 0 and the loop runs forever (it is never reported as a
configuration error). -/
theorem splitIntoChunks_diverges_overlap_ge (text : List Char) (cs ov : Nat)
    (hov : cs ≤ ov) (hlen : 0 < text.length)
    (hp : '.' ∉ text) (hn : '\n' ∉ text) :
    splitDiverges text cs ov := by
  intro fuel
  refine splitGo_none_of_invariant text cs ov (fun s => s ≤ 0) ?_ fuel 0 le_rfl
  intro s hs
  refine ⟨by omega, ?_⟩
  have hper : ∀ pos, jsLastIndexOf text '.' pos = -1 :=
    fun pos => jsLastIndexOf_of_not_mem text '.' pos hp
  have hnl : ∀ pos, jsLastIndexOf text '\n' pos = -1 :=
    fun pos => jsLastIndexOf_of_not_mem text '\n' pos hn
  simp only [chunkEnd, hper, hnl]
  split_ifs <;> omega

/-- Witness for the amended C7: twenty `'b'`s with `chunkSize = 10` and
`overlap = 12` loop forever. -/
theorem splitIntoChunks_diverges_overlap_ge_witness :
    splitDiverges (List.replicate 20 'b') 10 12 :=
  splitIntoChunks_diverges_overlap_ge (List.replicate 20 'b') 10 12
    (by norm_num) (by simp) (by simp) (by simp)

/-- C8: when the proposed end `start + chunkSize` lies strictly before the
text's end, the loop's new end is one past the break candidate
`bp = max(lastIndexOf('.', end), lastIndexOf('\n', end))` exactly when the
candidate lies strictly past the chunk midpoint
(`bp > start + chunkSize·0.5`, embedded exactly as `2·bp > 2·start +
chunkSize`); otherwise the raw proposed end is kept.  The accompanying
conjuncts certify that `bp` really is the nearest `'.'`-or-newline position
found looking backward from the (clamped) proposed end. -/
theorem chunkEnd_break_acceptance (text : List Char) (cs : Nat) (start bp : Int)
    (hbp : bp = max (jsLastIndexOf text '.' (start + cs))
      (jsLastIndexOf text '\n' (start + cs)))
    (hlt : start + (cs : Int) < (text.length : Int)) :
    chunkEnd text cs start =
      (if 2 * bp > 2 * start + cs then bp + 1 else start + cs) ∧
    breakUpperBound text (start + cs) bp ∧
    breakWitnessed text (start + cs) bp := by
  refine ⟨?_, ?_, ?_⟩
  · subst hbp
    simp only [chunkEnd]
    rw [if_pos hlt]
  · intro j hj hjle hbrk
    have hj' : j ≤ (start + (cs : Int)).toNat := by omega
    subst hbp
    rcases hbrk with hdot | hnl
    · have := lastIdxLe_greatest text '.' (start + (cs : Int)).toNat j hj hj' hdot
      unfold jsLastIndexOf
      omega
    · have := lastIdxLe_greatest text '\n' (start + (cs : Int)).toNat j hj hj' hnl
      unfold jsLastIndexOf
      omega
  · intro hge
    have hple := jsLastIndexOf_le text '.' (start + cs)
    have hnle := jsLastIndexOf_le text '\n' (start + cs)
    rcases max_choice (jsLastIndexOf text '.' (start + cs))
        (jsLastIndexOf text '\n' (start + cs)) with hmax | hmax
    · rw [hmax] at hbp
      subst hbp
      obtain ⟨hb, hcc⟩ := lastIdxLe_mem text '.' (start + (cs : Int)).toNat _ rfl hge
      exact ⟨hb, Or.inl hcc, by omega⟩
    · rw [hmax] at hbp
      subst hbp
      obtain ⟨hb, hcc⟩ := lastIdxLe_mem text '\n' (start + (cs : Int)).toNat _ rfl hge
      exact ⟨hb, Or.inr hcc, by omega⟩

/-- Witness for C8: in `"ab.cdefgh"` with `chunkSize = 4` at cursor 0 the
break candidate is position 2, which is not past the midpoint, so the raw
proposed end 4 is kept. -/
theorem chunkEnd_break_acceptance_witness :
    chunkEnd ("ab.cdefgh".toList) 4 0 =
      (if 2 * (2 : Int) > 2 * 0 + 4 then 2 + 1 else 0 + 4) ∧
    breakUpperBound ("ab.cdefgh".toList) (0 + 4) 2 ∧
    breakWitnessed ("ab.cdefgh".toList) (0 + 4) 2 :=
  chunkEnd_break_acceptance ("ab.cdefgh".toList) 4 0 2 (by decide) (by decide)

set_option maxRecDepth 4000 in
/-- C9 counterexample: the claim that stored metadata records the half-open
interval at which each chunk was extracted, with `startOffset < endOffset`,
is false.  On the 460-character document, chunk 1 is extracted at the
interval `[450, …)` (the instrumented loop records cursor 450), but the
stored metadata says `startChar = 500`, `endChar = 460`: not the extraction
cursor, and not even `startChar < endChar`.  (Page number `⌊1/5⌋ + 1 = 1` is
as claimed.) -/
theorem processPDF_metadata_not_extraction_offsets :
    splitGoOffsets text460 500 50 2 0 =
      some [(List.replicate 460 'a', 0, 500), (List.replicate 10 'a', 450, 950)] ∧
    processPDF id (ProcState.fresh (List Char)) text460 2 = some state460 ∧
    state460.metadata.getD 1 ⟨0, 0, 0, 0⟩ = ⟨1, 500, 460, 1⟩ ∧
    (500 : Int) ≠ 450 ∧ ¬(500 : Nat) < 460 :=
  ⟨by decide, by decide, by decide, by decide, by decide⟩

/-- C9 (amended): the metadata `processPDF` stores for chunk `i` of a text
processed on a fresh engine is the arithmetic estimate
`startChar = i·500`, `endChar = min((i+1)·500, textLength)`,
`pageNumber = ⌊i/5⌋ + 1 ≥ 1` — formulas in the chunk index, not the actual
extraction offsets, and `startChar < endChar` need not hold. -/
theorem processPDF_metadata_formula {V : Type} (embed : List Char → V)
    (text : List Char) (fuel : Nat) (st : ProcState V) (i : Nat)
    (h : processPDF embed (ProcState.fresh V) text fuel = some st)
    (hi : i < st.metadata.length) :
    st.metadata.getD i ⟨0, 0, 0, 0⟩ = mkMetadata text.length i ∧
    1 ≤ (st.metadata.getD i ⟨0, 0, 0, 0⟩).pageNumber := by
  simp only [processPDF, initEngine, ProcState.fresh, Bool.false_eq_true,
    if_false, List.nil_append] at h
  cases hsp : splitIntoChunks text 500 50 fuel with
  | none => rw [hsp] at h; cases h
  | some cs =>
    rw [hsp] at h
    simp only [Option.some.injEq] at h
    subst h
    simp only [List.nil_append] at hi ⊢
    have hi' : i < cs.length := by simpa using hi
    have hgd : ((List.range cs.length).map (mkMetadata text.length)).getD i ⟨0, 0, 0, 0⟩ =
        mkMetadata text.length i := by
      rw [List.getD_eq_getElem _ _ (by simpa using hi), List.getElem_map,
        List.getElem_range]
    refine ⟨hgd, ?_⟩
    rw [hgd]
    simp only [mkMetadata]
    omega

set_option maxRecDepth 4000 in
/-- Witness for the amended C9: chunk 1 of the 460-character document gets the
metadata formulas. -/
theorem processPDF_metadata_formula_witness :
    state460.metadata.getD 1 ⟨0, 0, 0, 0⟩ = mkMetadata text460.length 1 ∧
    1 ≤ (state460.metadata.getD 1 ⟨0, 0, 0, 0⟩).pageNumber :=
  processPDF_metadata_formula (id : List Char → List Char) text460 2 state460 1
    (by decide) (by decide)

/-- C1: the claimed invariant "chunk-list length equals vector-index size
after every successful `processPDF`, including replacement" fails on the
code: `processPDF` assigns a new chunk list but only appends to the
persistent FAISS index.  After indexing `"hello"` (1 chunk, 1 row) and then
replacing it with `"world"`, the chunk list has 1 entry while the index
holds 2 rows. -/
theorem processPDF_reindex_desyncs_index :
    processPDF id (ProcState.fresh (List Char)) "hello".toList 2 = some stateA ∧
    processPDF id stateA "world".toList 2 = some stateB ∧
    stateA.chunks.length = stateA.faissIndex.length ∧
    stateB.chunks.length = 1 ∧
    stateB.faissIndex.length = 2 ∧
    stateB.chunks.length ≠ stateB.faissIndex.length :=
  ⟨by decide, by decide, by decide, by decide, by decide, by decide⟩

/-- C2: the claim that `processPDF` clears the prior chunk list, metadata and
vector index (full replace) fails for metadata and the vector index: after
replacing `"hello"` with `"world"`, `getChunksCount` does return 1 (the chunk
list alone is replaced), but two metadata entries remain and the index still
holds the first document's vector alongside the new one. -/
theorem processPDF_reindex_keeps_stale_rows :
    getChunksCount stateB = 1 ∧
    stateB.chunks = ["world".toList] ∧
    stateB.metadata.length = 2 ∧
    stateB.faissIndex = ["hello".toList, "world".toList] :=
  ⟨by decide, by decide, by decide, by decide⟩

/-- C4: `searchSimilarChunks` returns at most `k` results whenever the index
collaborator reports at most `k` rows; when the reported distances are
non-decreasing (the FAISS search contract) the returned similarities are
non-increasing; and every returned similarity is exactly `1 - d` for a
reported row distance `d`. -/
theorem searchSimilarChunks_topk_sorted {V : Type} (st : ProcState V)
    (indices : List Int) (distances : List ℚ) (k : Nat)
    (hk : indices.length ≤ k)
    (hsorted : (indices.zip distances).Pairwise fun p q => p.2 ≤ q.2) :
    (searchSimilarChunks st indices distances).length ≤ k ∧
    (searchSimilarChunks st indices distances).Pairwise
      (fun a b => b.similarity ≤ a.similarity) ∧
    similaritiesFromDistances (searchSimilarChunks st indices distances)
      (indices.zip distances) := by
  unfold searchSimilarChunks
  split_ifs with hguard
  · refine ⟨by simp, by simp, ?_⟩
    unfold similaritiesFromDistances
    intro r hr
    simp at hr
  · refine ⟨?_, buildResults_pairwise _ _ _ hsorted, ?_⟩
    · refine le_trans (le_trans (List.length_filterMap_le _ _) ?_) hk
      rw [List.length_zip]
      exact min_le_left _ _
    · unfold similaritiesFromDistances
      intro r hr
      obtain ⟨p, hp, _, _, hre⟩ := mem_buildResults _ _ _ r hr
      exact ⟨p, hp, by rw [hre]⟩

/-- Witness for C4 on a ready engine with one indexed chunk and one reported
row at distance `1/4`. -/
theorem searchSimilarChunks_topk_sorted_witness :
    (searchSimilarChunks stateA [0] [(1 : ℚ)/4]).length ≤ 3 ∧
    (searchSimilarChunks stateA [0] [(1 : ℚ)/4]).Pairwise
      (fun a b => b.similarity ≤ a.similarity) ∧
    similaritiesFromDistances (searchSimilarChunks stateA [0] [(1 : ℚ)/4])
      ([0].zip [(1 : ℚ)/4]) :=
  searchSimilarChunks_topk_sorted stateA [0] [(1 : ℚ)/4] 3 (by decide) (by simp)

/-- C5: a query against an engine with no indexed document is answered with
the reported not-ready error — the 400 response `'No document loaded'` — and
with no chunks: the route guard fires before any search, the underlying
search itself returns `[]`, and no unhandled fault escapes (the route handler
is total). -/
theorem queryRoute_no_document_reports_not_ready {V : Type} (st : ProcState V)
    (indices : List Int) (distances : List ℚ) (llmAnswer : Option String)
    (h : st.chunks = []) :
    queryRoute st true indices distances llmAnswer =
      RouteResponse.clientError ("No document loaded") ∧
    searchSimilarChunks st indices distances = [] := by
  have hd : hasDocument st = false := by simp [hasDocument, h]
  constructor
  · simp [queryRoute, hd]
  · simp [searchSimilarChunks, h]

/-- Witness for C5: a fresh engine. -/
theorem queryRoute_no_document_reports_not_ready_witness :
    queryRoute (ProcState.fresh (List Char)) true [0] [(1 : ℚ)/2] (some ("hi")) =
      RouteResponse.clientError ("No document loaded") ∧
    searchSimilarChunks (ProcState.fresh (List Char)) [0] [(1 : ℚ)/2] = [] :=
  queryRoute_no_document_reports_not_ready _ [0] [(1 : ℚ)/2] (some ("hi")) rfl

/-- C6: on a ready engine, `searchSimilarChunks` is exactly: keep, in the
collaborator's ranked order, the reported rows whose id lies in
`[0, chunks.length)`, and map each to its chunk, metadata and similarity —
so every surviving lookup is in bounds (the chunk is a true element of the
chunk list, and the metadata lookup is the corresponding entry whenever it is
in range). -/
theorem searchSimilarChunks_row_ids_in_bounds {V : Type} (st : ProcState V)
    (indices : List Int) (distances : List ℚ)
    (hinit : st.initialized = true) (hne : st.chunks.length ≠ 0) :
    searchSimilarChunks st indices distances =
      ((indices.zip distances).filter fun p =>
          decide (0 ≤ p.1 ∧ p.1 < (st.chunks.length : Int))).map
        (fun p => ⟨st.chunks.getD p.1.toNat [],
          st.metadata.getD p.1.toNat ⟨0, 0, 0, 0⟩, 1 - p.2⟩) ∧
    resultsInBounds st.chunks st.metadata
      (searchSimilarChunks st indices distances) := by
  have hmain : searchSimilarChunks st indices distances =
      buildResults st.chunks st.metadata (indices.zip distances) := by
    simp [searchSimilarChunks, hinit, hne]
  refine ⟨hmain.trans (buildResults_eq_map_filter _ _ _), ?_⟩
  rw [hmain]
  unfold resultsInBounds
  intro r hr
  obtain ⟨p, hp, h0, hlen, hre⟩ := mem_buildResults _ _ _ r hr
  have hidx : p.1.toNat < st.chunks.length := by omega
  refine ⟨⟨p.1.toNat, hidx⟩, ?_, ?_⟩
  · rw [hre]
    show st.chunks.getD p.1.toNat [] = _
    rw [List.getD_eq_getElem _ _ hidx, List.get_eq_getElem]
  · intro hm
    rw [hre]
    show st.metadata.getD p.1.toNat ⟨0, 0, 0, 0⟩ = _
    rw [List.getD_eq_getElem _ _ hm, List.get_eq_getElem]

/-- Witness for C6: three reported rows, of which row 5 and row -1 are out of
range for the single indexed chunk and must be dropped. -/
theorem searchSimilarChunks_row_ids_in_bounds_witness :
    searchSimilarChunks stateA [0, 5, -1] [(1 : ℚ)/4, (1 : ℚ)/3, (1 : ℚ)/2] =
      (([0, 5, -1].zip [(1 : ℚ)/4, (1 : ℚ)/3, (1 : ℚ)/2]).filter fun p =>
          decide (0 ≤ p.1 ∧ p.1 < (stateA.chunks.length : Int))).map
        (fun p => ⟨stateA.chunks.getD p.1.toNat [],
          stateA.metadata.getD p.1.toNat ⟨0, 0, 0, 0⟩, 1 - p.2⟩) ∧
    resultsInBounds stateA.chunks stateA.metadata
      (searchSimilarChunks stateA [0, 5, -1] [(1 : ℚ)/4, (1 : ℚ)/3, (1 : ℚ)/2]) :=
  searchSimilarChunks_row_ids_in_bounds stateA [0, 5, -1]
    [(1 : ℚ)/4, (1 : ℚ)/3, (1 : ℚ)/2] (by decide) (by decide)

end PDFQA
